import Mathlib

set_option maxHeartbeats 1000000

/-
Shallow embedding of `20_llm_large_language_model.ipynb`:
the `preprocess_text` vocabulary/sequence construction and the
`generate_text` decode loop.  NLTK's `word_tokenize` and the trained
Keras model are external libraries; they enter as parameters
(`allTokens`, `seedWords` stand for the word-tokenized, lowercased text;
`model` stands for `lambda w: model.predict(np.array([w]), verbose=0)[0]`).
-/

/-- Python dict lookup `d.get(w, 0)` over an insertion-ordered association
list; later entries override earlier ones, hence the reverse. -/
def vocabGet (d : List (String × Nat)) (w : String) : Nat :=
  (d.reverse.lookup w).getD 0

/-- Inverse vocabulary `inv_vocab = {v: k for k, v in vocab.items()}` with
dict semantics, queried as `inv_vocab.get(t, '<PAD>')`. -/
def invGet (d : List (String × Nat)) (t : Nat) : String :=
  ((d.map (fun p => (p.2, p.1))).reverse.lookup t).getD "<PAD>"

/-- Insertion-ordered key list of `collections.Counter(all_tokens)`. -/
def counterKeys (tokens : List String) : List String :=
  tokens.foldl (fun acc t => if t ∈ acc then acc else acc ++ [t]) []

/-- Model of `Counter.most_common(n)`: keys sorted by count, descending,
ties in insertion order (the sort is stable), truncated to `n` entries. -/
def mostCommon (tokens : List String) (n : Nat) : List String :=
  ((counterKeys tokens).mergeSort
    (fun a b => Nat.ble (tokens.count b) (tokens.count a))).take n

/-- Python dict assignment `d[k] = v`: update in place when the key exists,
append otherwise. -/
def dictUpdate (d : List (String × Nat)) (k : String) (v : Nat) : List (String × Nat) :=
  if k ∈ d.map Prod.fst then d.map (fun p => if p.1 = k then (k, v) else p)
  else d ++ [(k, v)]

/-- Python dict comprehension, built by folding `dictUpdate` over the pairs. -/
def dictOfPairs (ps : List (String × Nat)) : List (String × Nat) :=
  ps.foldl (fun d p => dictUpdate d p.1 p.2) []

/-- Vocabulary of `preprocess_text`:
`vocab = {word: idx + 1 for idx, word in enumerate(most_common_words)}`
followed by `vocab['<PAD>'] = 0`. -/
def vocabDict (allTokens : List String) (vocabSize : Nat) : List (String × Nat) :=
  dictUpdate
    (dictOfPairs (((mostCommon allTokens (vocabSize - 1)).enum).map
      (fun p => (p.2, p.1 + 1))))
    "<PAD>" 0

/-- Corpus identifiers `token_ids = [vocab.get(token, 0) for token in all_tokens]`. -/
def token_ids (allTokens : List String) (vocabSize : Nat) : List Nat :=
  allTokens.map (vocabGet (vocabDict allTokens vocabSize))

/-- Python `range(0, stop, step)` over naturals for a positive step; the
call site's `len(token_ids) - seq_length` is clamped at zero by natural
subtraction, matching the empty range Python produces for a nonpositive bound. -/
def pyRangeStep (stop step : Nat) : List Nat :=
  (List.range ((stop + step - 1) / step)).map (fun k => k * step)

/-- Window enumeration
`[token_ids[i:i + seq_length] for i in range(0, len(token_ids) - seq_length, seq_length)]`. -/
def sequences_raw (ids : List Nat) (seqLength : Nat) : List (List Nat) :=
  (pyRangeStep (ids.length - seqLength) seqLength).map
    (fun i => (ids.drop i).take seqLength)

/-- Truncation `sequences = sequences[:max_sequences]`. -/
def sequences_trunc (ids : List Nat) (seqLength maxSequences : Nat) : List (List Nat) :=
  (sequences_raw ids seqLength).take maxSequences

/-- Per-sequence padding `[seq + [0] * (seq_length - len(seq)) for seq in sequences]`. -/
def sequences_padded (ids : List Nat) (seqLength maxSequences : Nat) : List (List Nat) :=
  (sequences_trunc ids seqLength maxSequences).map
    (fun s => s ++ List.replicate (seqLength - s.length) 0)

/-- Model of `preprocess_text` after tokenization: returns the padded
sequence list and the vocabulary (`all_tokens` is the concatenation of
`word_tokenize(text.lower())` over the corpus, supplied as input since the
tokenizer is an external library). -/
def preprocess_text (allTokens : List String) (vocabSize seqLength maxSequences : Nat) :
    List (List Nat) × List (String × Nat) :=
  (sequences_padded (token_ids allTokens vocabSize) seqLength maxSequences,
   vocabDict allTokens vocabSize)

/-- Seed identifiers `tokens = [vocab.get(word, 0) for word in word_tokenize(seed_text.lower())]`. -/
def seedTokens (vocab : List (String × Nat)) (seedWords : List String) : List Nat :=
  seedWords.map (vocabGet vocab)

/-- Initial generation state
`tokens = tokens[:seq_length - 1] + [0] * (seq_length - 1 - len(tokens))`. -/
def initTokens (vocab : List (String × Nat)) (seedWords : List String) (seqLength : Nat) : List Nat :=
  (seedTokens vocab seedWords).take (seqLength - 1) ++
    List.replicate ((seqLength - 1) - (seedTokens vocab seedWords).length) 0

/-- Python tail slice `l[-k:]` for a natural `k`; for `k = 0` the slice is
the whole list, matching `l[-0:] = l[0:]`. -/
def lastWindow (l : List Nat) (k : Nat) : List Nat :=
  if k = 0 then l else l.drop (l.length - k)

/-- Additive floor `1e-10` applied before the logarithm. -/
noncomputable def epsFloor : ℝ := 1 / 10 ^ 10

/-- Elementwise temperature rescaling `np.exp(np.log(x + 1e-10) / temperature)`. -/
noncomputable def tempScale (T x : ℝ) : ℝ :=
  Real.exp (Real.log (x + epsFloor) / T)

/-- Global sum `np.sum` over a two-dimensional array. -/
def sumAll (a : List (List ℝ)) : ℝ :=
  (a.map List.sum).sum

/-- Array `np.exp(np.log(pred + 1e-10) / temperature)`. -/
noncomputable def expScaled (T : ℝ) (pred : List (List ℝ)) : List (List ℝ) :=
  pred.map (List.map (tempScale T))

/-- Temperature transform of `generate_text`:
`pred = np.log(pred + 1e-10) / temperature` then
`pred = np.exp(pred) / np.sum(np.exp(pred))` — elementwise rescaling
followed by division by the global sum. -/
noncomputable def tempTransform (T : ℝ) (pred : List (List ℝ)) : List (List ℝ) :=
  (expScaled T pred).map (List.map (fun x => x / sumAll (expScaled T pred)))

/-- Running maximum of a vector of reals (helper for `np.argmax`). -/
noncomputable def listMax : List ℝ → ℝ
  | [] => 0
  | [x] => x
  | x :: y :: xs => max x (listMax (y :: xs))

/-- Model of `np.argmax` over a vector: index of the first maximal entry. -/
noncomputable def argmax : List ℝ → Nat
  | [] => 0
  | [_] => 0
  | x :: y :: xs => if x < listMax (y :: xs) then argmax (y :: xs) + 1 else 0

/-- Selection step `next_token = np.argmax(pred[0, -1])` applied to the
temperature-transformed prediction for the current right-aligned window. -/
noncomputable def nextToken (model : List Nat → List (List ℝ)) (T : ℝ)
    (seqLength : Nat) (tokens : List Nat) : Nat :=
  argmax ((tempTransform T (model (lastWindow tokens (seqLength - 1)))).getLastD [])

/-- Decode loop `for _ in range(length): ... tokens.append(next_token)`. -/
noncomputable def genLoop (model : List Nat → List (List ℝ)) (T : ℝ)
    (seqLength : Nat) : Nat → List Nat → List Nat
  | 0, tokens => tokens
  | n + 1, tokens => genLoop model T seqLength n (tokens ++ [nextToken model T seqLength tokens])

/-- Generation state after running the decode loop for `len` steps. -/
noncomputable def gen_state (model : List Nat → List (List ℝ)) (vocab : List (String × Nat))
    (seedWords : List String) (seqLength len : Nat) (T : ℝ) : List Nat :=
  genLoop model T seqLength len (initTokens vocab seedWords seqLength)

/-- Word list `[inv_vocab.get(t, '<PAD>') for t in tokens]` over the final state. -/
noncomputable def generate_words (model : List Nat → List (List ℝ)) (vocab : List (String × Nat))
    (seedWords : List String) (seqLength len : Nat) (T : ℝ) : List String :=
  (gen_state model vocab seedWords seqLength len T).map (invGet vocab)

/-- Return value of `generate_text`: `' '.join(...)` over the word list. -/
noncomputable def generate_text (model : List Nat → List (List ℝ)) (vocab : List (String × Nat))
    (seedWords : List String) (seqLength len : Nat) (T : ℝ) : String :=
  String.intercalate " " (generate_words model vocab seedWords seqLength len T)

/-- Concrete vocabulary used to instantiate hypotheses of the theorems below. -/
def demoVocab : List (String × Nat) :=
  [("save", 1), ("money", 2), ("budget", 3), ("tips", 4)]

theorem lookup_eq_none_of_forall {α β : Type} [BEq α] [LawfulBEq α]
    (l : List (α × β)) (a : α) (h : ∀ p ∈ l, p.1 ≠ a) : l.lookup a = none := by
  induction l with
  | nil => rfl
  | cons p l ih =>
    obtain ⟨k, b⟩ := p
    have hne : k ≠ a := h (k, b) (by simp)
    have hb : (a == k) = false := by
      simp only [beq_eq_false_iff_ne]
      exact fun he => hne he.symm
    simp only [List.lookup, hb]
    exact ih (fun q hq => h q (by simp [hq]))

theorem mem_of_lookup_eq_some {α β : Type} [BEq α] [LawfulBEq α]
    {l : List (α × β)} {a : α} {b : β} (h : l.lookup a = some b) : (a, b) ∈ l := by
  induction l with
  | nil => simp [List.lookup] at h
  | cons p l ih =>
    obtain ⟨k, c⟩ := p
    by_cases hk : a = k
    · subst hk
      simp only [List.lookup, beq_self_eq_true] at h
      have : c = b := by simpa using h
      simp [this]
    · have hk' : (a == k) = false := by simpa using hk
      simp only [List.lookup, hk'] at h
      exact List.mem_cons_of_mem _ (ih h)

theorem genLoop_length (model : List Nat → List (List ℝ)) (T : ℝ) (seqLength : Nat) :
    ∀ (n : Nat) (t : List Nat), (genLoop model T seqLength n t).length = t.length + n := by
  intro n
  induction n with
  | zero => intro t; simp [genLoop]
  | succ n ih =>
    intro t
    simp only [genLoop]
    rw [ih]
    simp only [List.length_append, List.length_cons, List.length_nil]
    omega

theorem initTokens_length (vocab : List (String × Nat)) (seedWords : List String)
    (seqLength : Nat) : (initTokens vocab seedWords seqLength).length = seqLength - 1 := by
  simp only [initTokens, List.length_append, List.length_take, List.length_replicate]
  omega

theorem lastWindow_of_length_eq (l : List Nat) (k : Nat) (h : l.length = k) :
    lastWindow l k = l := by
  unfold lastWindow
  by_cases hk : k = 0
  · simp [hk]
  · simp [hk, h]

theorem lastWindow_length (l : List Nat) (k : Nat) (h1 : k ≠ 0) (h2 : k ≤ l.length) :
    (lastWindow l k).length = k := by
  simp only [lastWindow, h1, if_false, List.length_drop]
  omega

theorem lastWindow_suffix (l : List Nat) (k : Nat) (h1 : k ≠ 0) :
    l = l.take (l.length - k) ++ lastWindow l k := by
  simp [lastWindow, h1]

theorem dictUpdate_of_not_mem (d : List (String × Nat)) (k : String) (v : Nat)
    (h : k ∉ d.map Prod.fst) : dictUpdate d k v = d ++ [(k, v)] := by
  simp [dictUpdate, h]

theorem foldl_dictUpdate (ps : List (String × Nat)) :
    ∀ acc : List (String × Nat), ((acc ++ ps).map Prod.fst).Nodup →
      ps.foldl (fun d p => dictUpdate d p.1 p.2) acc = acc ++ ps := by
  induction ps with
  | nil => intro acc _; simp
  | cons p ps ih =>
    intro acc h
    obtain ⟨k, v⟩ := p
    have h' : (acc.map Prod.fst ++ (k :: ps.map Prod.fst)).Nodup := by simpa using h
    rw [List.nodup_append] at h'
    have hk : k ∉ acc.map Prod.fst := by
      intro hc
      exact h'.2.2 hc (by simp)
    have h2 : (((acc ++ [(k, v)]) ++ ps).map Prod.fst).Nodup := by
      simpa [List.append_assoc] using h
    simp only [List.foldl_cons]
    rw [dictUpdate_of_not_mem acc k v hk, ih (acc ++ [(k, v)]) h2]
    simp

theorem dictOfPairs_eq_self (ps : List (String × Nat)) (h : (ps.map Prod.fst).Nodup) :
    dictOfPairs ps = ps := by
  unfold dictOfPairs
  rw [foldl_dictUpdate ps [] (by simpa using h)]
  simp

theorem counterKeys_nodup_aux (ts : List String) :
    ∀ acc : List String, acc.Nodup →
      (ts.foldl (fun acc t => if t ∈ acc then acc else acc ++ [t]) acc).Nodup := by
  induction ts with
  | nil => intro acc h; simpa using h
  | cons t ts ih =>
    intro acc h
    simp only [List.foldl_cons]
    by_cases ht : t ∈ acc
    · simpa [ht] using ih acc h
    · have hnew : (acc ++ [t]).Nodup := by
        rw [List.nodup_append]
        exact ⟨h, List.nodup_singleton t, List.disjoint_singleton.mpr ht⟩
      simpa [ht] using ih (acc ++ [t]) hnew

theorem counterKeys_nodup (tokens : List String) : (counterKeys tokens).Nodup :=
  counterKeys_nodup_aux tokens [] List.nodup_nil

theorem counterKeys_mem_aux (ts : List String) :
    ∀ (acc : List String) (x : String),
      x ∈ ts.foldl (fun acc t => if t ∈ acc then acc else acc ++ [t]) acc →
      x ∈ acc ∨ x ∈ ts := by
  induction ts with
  | nil => intro acc x h; simp at h; exact Or.inl h
  | cons t ts ih =>
    intro acc x h
    simp only [List.foldl_cons] at h
    by_cases ht : t ∈ acc
    · rcases ih acc x (by simpa [ht] using h) with h1 | h1
      · exact Or.inl h1
      · exact Or.inr (by simp [h1])
    · rcases ih (acc ++ [t]) x (by simpa [ht] using h) with h1 | h1
      · rcases List.mem_append.mp h1 with h2 | h2
        · exact Or.inl h2
        · exact Or.inr (by simp at h2; simp [h2])
      · exact Or.inr (by simp [h1])

theorem counterKeys_subset (tokens : List String) (x : String)
    (h : x ∈ counterKeys tokens) : x ∈ tokens := by
  rcases counterKeys_mem_aux tokens [] x h with h1 | h1
  · simp at h1
  · exact h1

theorem mostCommon_nodup (tokens : List String) (n : Nat) : (mostCommon tokens n).Nodup := by
  unfold mostCommon
  have hperm := List.mergeSort_perm (counterKeys tokens)
    (fun a b => Nat.ble (tokens.count b) (tokens.count a))
  have hnd : ((counterKeys tokens).mergeSort
      (fun a b => Nat.ble (tokens.count b) (tokens.count a))).Nodup :=
    (hperm.nodup_iff).mpr (counterKeys_nodup tokens)
  exact (List.take_sublist n _).nodup hnd

theorem mostCommon_subset (tokens : List String) (n : Nat) (x : String)
    (h : x ∈ mostCommon tokens n) : x ∈ tokens := by
  unfold mostCommon at h
  have h1 := List.mem_of_mem_take h
  have hperm := List.mergeSort_perm (counterKeys tokens)
    (fun a b => Nat.ble (tokens.count b) (tokens.count a))
  exact counterKeys_subset tokens x (hperm.mem_iff.mp h1)

theorem mostCommon_length_le (tokens : List String) (n : Nat) :
    (mostCommon tokens n).length ≤ n :=
  List.length_take_le n _

theorem vocabDict_eq (allTokens : List String) (vocabSize : Nat)
    (h : "<PAD>" ∉ allTokens) :
    vocabDict allTokens vocabSize =
      ((mostCommon allTokens (vocabSize - 1)).enum.map (fun p => (p.2, p.1 + 1)))
        ++ [("<PAD>", 0)] := by
  unfold vocabDict
  have hkeys : ((mostCommon allTokens (vocabSize - 1)).enum.map
      (fun p => (p.2, p.1 + 1))).map Prod.fst = mostCommon allTokens (vocabSize - 1) := by
    rw [List.map_map]
    have hc : (Prod.fst ∘ fun p : Nat × String => (p.2, p.1 + 1)) = Prod.snd := rfl
    rw [hc, List.enum_map_snd]
  have hnd : (((mostCommon allTokens (vocabSize - 1)).enum.map
      (fun p => (p.2, p.1 + 1))).map Prod.fst).Nodup := by
    rw [hkeys]; exact mostCommon_nodup _ _
  rw [dictOfPairs_eq_self _ hnd]
  apply dictUpdate_of_not_mem
  rw [hkeys]
  intro hc
  exact h (mostCommon_subset _ _ _ hc)

theorem enum_pairs_snd (l : List String) :
    (l.enum.map (fun p => (p.2, p.1 + 1))).map Prod.snd =
      (List.range l.length).map (fun i => i + 1) := by
  rw [List.map_map]
  have hc : (Prod.snd ∘ fun p : Nat × String => (p.2, p.1 + 1)) =
      ((fun i => i + 1) ∘ Prod.fst) := rfl
  rw [hc, ← List.map_map, List.enum_map_fst]

theorem getLastD_mem {α : Type} : ∀ (l : List α) (d : α), l ≠ [] → l.getLastD d ∈ l := by
  intro l
  induction l with
  | nil => intro d h; exact absurd rfl h
  | cons x xs ih =>
    intro d _
    cases xs with
    | nil => simp
    | cons y ys =>
      rw [List.getLastD_cons]
      exact List.mem_cons_of_mem _ (ih x (by simp))

theorem listMax_mem : ∀ (l : List ℝ), l ≠ [] → listMax l ∈ l := by
  intro l
  induction l with
  | nil => intro h; exact absurd rfl h
  | cons x xs ih =>
    intro _
    cases xs with
    | nil => simp [listMax]
    | cons y ys =>
      simp only [listMax]
      rcases le_total x (listMax (y :: ys)) with h | h
      · rw [max_eq_right h]; exact List.mem_cons_of_mem _ (ih (by simp))
      · rw [max_eq_left h]; simp

theorem le_listMax : ∀ (l : List ℝ) (x : ℝ), x ∈ l → x ≤ listMax l := by
  intro l
  induction l with
  | nil => intro x h; simp at h
  | cons a xs ih =>
    intro x hx
    cases xs with
    | nil =>
      simp at hx
      simp [listMax, hx]
    | cons y ys =>
      simp only [listMax]
      rcases List.mem_cons.mp hx with h | h
      · rw [h]; exact le_max_left _ _
      · exact le_trans (ih x h) (le_max_right _ _)

theorem argmax_lt_length : ∀ (l : List ℝ), l ≠ [] → argmax l < l.length := by
  intro l
  induction l with
  | nil => intro h; exact absurd rfl h
  | cons a xs ih =>
    intro _
    cases xs with
    | nil => simp [argmax]
    | cons y ys =>
      simp only [argmax]
      by_cases h : a < listMax (y :: ys)
      · rw [if_pos h]
        have := ih (by simp)
        simp only [List.length_cons] at this ⊢
        omega
      · rw [if_neg h]
        simp

theorem getD_argmax : ∀ (l : List ℝ), l ≠ [] → l.getD (argmax l) 0 = listMax l := by
  intro l
  induction l with
  | nil => intro h; exact absurd rfl h
  | cons a xs ih =>
    intro _
    cases xs with
    | nil => simp [argmax, listMax]
    | cons y ys =>
      simp only [argmax, listMax]
      by_cases h : a < listMax (y :: ys)
      · rw [if_pos h]
        rw [List.getD_cons_succ]
        rw [ih (by simp)]
        rw [max_eq_right (le_of_lt h)]
      · rw [if_neg h]
        rw [List.getD_cons_zero]
        rw [max_eq_left (not_lt.mp h)]

theorem getD_lt_of_lt_argmax : ∀ (l : List ℝ) (j : Nat), j < argmax l →
    l.getD j 0 < l.getD (argmax l) 0 := by
  intro l
  induction l with
  | nil => intro j h; simp [argmax] at h
  | cons a xs ih =>
    intro j hj
    cases xs with
    | nil => simp [argmax] at hj
    | cons y ys =>
      simp only [argmax] at hj ⊢
      by_cases h : a < listMax (y :: ys)
      · rw [if_pos h] at hj ⊢
        rw [List.getD_cons_succ]
        cases j with
        | zero =>
          rw [List.getD_cons_zero, getD_argmax _ (by simp)]
          exact h
        | succ j =>
          rw [List.getD_cons_succ]
          exact ih j (by omega)
      · rw [if_neg h] at hj
        omega

theorem listMax_map (f : ℝ → ℝ) (S : Set ℝ) (hf : MonotoneOn f S) :
    ∀ (l : List ℝ), l ≠ [] → (∀ x ∈ l, x ∈ S) → listMax (l.map f) = f (listMax l) := by
  intro l
  induction l with
  | nil => intro h; exact absurd rfl h
  | cons a xs ih =>
    intro _ hmem
    cases xs with
    | nil => simp [listMax]
    | cons y ys =>
      have hxs : listMax (y :: ys) ∈ y :: ys := listMax_mem _ (by simp)
      have hS1 : a ∈ S := hmem a (by simp)
      have hS2 : listMax (y :: ys) ∈ S := hmem _ (List.mem_cons_of_mem _ hxs)
      have hih := ih (by simp) (fun x hx => hmem x (List.mem_cons_of_mem _ hx))
      rw [List.map_cons] at hih ⊢
      simp only [List.map_cons, listMax] at hih ⊢
      rw [hih]
      rcases le_total a (listMax (y :: ys)) with h | h
      · rw [max_eq_right h, max_eq_right (hf hS1 hS2 h)]
      · rw [max_eq_left h, max_eq_left (hf hS2 hS1 h)]

theorem argmax_map (f : ℝ → ℝ) (S : Set ℝ) (hf : StrictMonoOn f S) :
    ∀ (l : List ℝ), (∀ x ∈ l, x ∈ S) → argmax (l.map f) = argmax l := by
  intro l
  induction l with
  | nil => intro _; rfl
  | cons a xs ih =>
    intro hmem
    cases xs with
    | nil => rfl
    | cons y ys =>
      have hmono : MonotoneOn f S := hf.monotoneOn
      have ha : a ∈ S := hmem a (by simp)
      have hmax : listMax (y :: ys) ∈ S :=
        hmem _ (List.mem_cons_of_mem _ (listMax_mem _ (by simp)))
      have hlm : listMax ((y :: ys).map f) = f (listMax (y :: ys)) :=
        listMax_map f S hmono _ (by simp) (fun x hx => hmem x (List.mem_cons_of_mem _ hx))
      have hih : argmax ((y :: ys).map f) = argmax (y :: ys) :=
        ih (fun x hx => hmem x (List.mem_cons_of_mem _ hx))
      rw [List.map_cons] at hlm hih
      simp only [List.map_cons, argmax]
      rw [hlm, hih]
      by_cases h : a < listMax (y :: ys)
      · rw [if_pos ((hf.lt_iff_lt ha hmax).mpr h), if_pos h]
      · rw [if_neg (fun hc => h ((hf.lt_iff_lt ha hmax).mp hc)), if_neg h]

theorem epsFloor_pos : (0 : ℝ) < epsFloor := by
  unfold epsFloor
  positivity

theorem tempScale_pos (T x : ℝ) : 0 < tempScale T x :=
  Real.exp_pos _

theorem tempScale_strictMonoOn (T : ℝ) (hT : 0 < T) :
    StrictMonoOn (tempScale T) {x : ℝ | 0 ≤ x} := by
  intro a ha b hb hab
  unfold tempScale
  apply Real.exp_lt_exp.mpr
  apply (div_lt_div_iff_of_pos_right hT).mpr
  apply Real.log_lt_log
  · have h0 : (0 : ℝ) ≤ a := ha
    have := epsFloor_pos
    linarith
  · linarith

theorem tempScale_div_strictMonoOn (T Z : ℝ) (hT : 0 < T) (hZ : 0 < Z) :
    StrictMonoOn (fun x => tempScale T x / Z) {x : ℝ | 0 ≤ x} := by
  intro a ha b hb hab
  exact (div_lt_div_iff_of_pos_right hZ).mpr (tempScale_strictMonoOn T hT ha hb hab)

theorem getLastD_map_map (f : ℝ → ℝ) : ∀ (l : List (List ℝ)) (d : List ℝ),
    (l.map (List.map f)).getLastD (d.map f) = (l.getLastD d).map f := by
  intro l
  induction l with
  | nil => intro d; rfl
  | cons x xs ih =>
    intro d
    simp only [List.map_cons, List.getLastD_cons]
    exact ih x

theorem getLastD_nil_map (f : ℝ → ℝ) (l : List (List ℝ)) :
    (l.map (List.map f)).getLastD [] = (l.getLastD []).map f := by
  have h := getLastD_map_map f l []
  simpa using h

theorem sumAll_expScaled_pos (T : ℝ) (pred : List (List ℝ))
    (hne : pred.getLastD [] ≠ []) : 0 < sumAll (expScaled T pred) := by
  have hpred : pred ≠ [] := by
    intro h0
    rw [h0] at hne
    exact hne rfl
  have hmemrow : (pred.getLastD []).map (tempScale T) ∈ expScaled T pred :=
    List.mem_map_of_mem _ (getLastD_mem pred [] hpred)
  have hmemsum : ((pred.getLastD []).map (tempScale T)).sum ∈
      (expScaled T pred).map List.sum :=
    List.mem_map_of_mem List.sum hmemrow
  have hnonneg : ∀ r ∈ (expScaled T pred).map List.sum, 0 ≤ r := by
    intro r hr
    rcases List.mem_map.mp hr with ⟨row, hrow, rfl⟩
    rcases List.mem_map.mp hrow with ⟨row0, _, rfl⟩
    apply List.sum_nonneg
    intro x hx
    rcases List.mem_map.mp hx with ⟨x0, _, rfl⟩
    exact le_of_lt (tempScale_pos T x0)
  have hlastpos : 0 < ((pred.getLastD []).map (tempScale T)).sum := by
    apply List.sum_pos
    · intro x hx
      rcases List.mem_map.mp hx with ⟨x0, _, rfl⟩
      exact tempScale_pos T x0
    · simpa using hne
  exact lt_of_lt_of_le hlastpos (List.single_le_sum hnonneg _ hmemsum)

theorem argmax_tempTransform (T : ℝ) (pred : List (List ℝ)) (hT : 0 < T)
    (hnn : ∀ x ∈ pred.getLastD [], 0 ≤ x) (hne : pred.getLastD [] ≠ []) :
    argmax ((tempTransform T pred).getLastD []) = argmax (pred.getLastD []) := by
  have hZ : 0 < sumAll (expScaled T pred) := sumAll_expScaled_pos T pred hne
  have hrow : (tempTransform T pred).getLastD [] =
      (pred.getLastD []).map
        (fun x => tempScale T x / sumAll (expScaled T pred)) := by
    unfold tempTransform
    rw [getLastD_nil_map]
    unfold expScaled
    rw [getLastD_nil_map, List.map_map]
    rfl
  rw [hrow]
  exact argmax_map _ {x : ℝ | 0 ≤ x}
    (tempScale_div_strictMonoOn T (sumAll (expScaled T pred)) hT hZ) _ hnn

theorem mem_pyRangeStep {i stop step : Nat} (h : i ∈ pyRangeStep stop step) :
    ∃ k, k < (stop + step - 1) / step ∧ i = k * step := by
  simp only [pyRangeStep, List.mem_map, List.mem_range] at h
  rcases h with ⟨k, hk, rfl⟩
  exact ⟨k, hk, rfl⟩

theorem pyRangeStep_lt {i stop step : Nat} (hstep : 0 < step)
    (h : i ∈ pyRangeStep stop step) : i < stop := by
  rcases mem_pyRangeStep h with ⟨k, hk, rfl⟩
  have hstop : stop ≠ 0 := by
    intro h0
    subst h0
    rw [Nat.div_eq_of_lt (by omega)] at hk
    omega
  have hn1 : 1 ≤ (stop + step - 1) / step := by omega
  have hmul : ((stop + step - 1) / step) * step ≤ stop + step - 1 :=
    Nat.div_mul_le_self _ _
  have hk1 : k + 1 ≤ (stop + step - 1) / step := hk
  have hkmul : (k + 1) * step ≤ ((stop + step - 1) / step) * step :=
    Nat.mul_le_mul_right step hk1
  have hexp : (k + 1) * step = k * step + step := by ring
  omega

theorem sequences_raw_full (ids : List Nat) (seqLength : Nat) (h : 0 < seqLength) :
    ∀ s ∈ sequences_raw ids seqLength, s.length = seqLength := by
  intro s hs
  simp only [sequences_raw, List.mem_map] at hs
  rcases hs with ⟨i, hi, rfl⟩
  have hlt : i < ids.length - seqLength := pyRangeStep_lt h hi
  rw [List.length_take, List.length_drop]
  omega

theorem sequences_padded_noop (ids : List Nat) (seqLength maxSequences : Nat)
    (h : 0 < seqLength) :
    sequences_padded ids seqLength maxSequences =
      sequences_trunc ids seqLength maxSequences := by
  unfold sequences_padded
  conv_rhs => rw [← List.map_id (sequences_trunc ids seqLength maxSequences)]
  apply List.map_congr_left
  intro s hs
  have hfull : s.length = seqLength :=
    sequences_raw_full ids seqLength h s (List.mem_of_mem_take hs)
  simp [hfull]

/-- Claim C1 counterexample: with vocabulary `{save:1, money:2, budget:3, tips:4}`,
seed words `save money budget tips` and `seq_length = 3`, the initial input
window is `[1, 2]` (the leading two identifiers), not the trailing two
identifiers `[3, 4]` of the tokenized seed. -/
theorem initial_window_not_trailing :
    lastWindow (initTokens demoVocab ["save", "money", "budget", "tips"] 3) 2 ≠
      (seedTokens demoVocab ["save", "money", "budget", "tips"]).drop
        ((seedTokens demoVocab ["save", "money", "budget", "tips"]).length - 2) := by
  decide

/-- Claim C1 (amended): for a seed whose tokenization has more than `seq_length - 1`
tokens, the initial model input window consists of exactly the leading (first)
`seq_length - 1` token identifiers of the tokenized seed
(the code truncates with `tokens[:seq_length - 1]`). -/
theorem initial_window_leading (vocab : List (String × Nat)) (seedWords : List String)
    (seqLength : Nat) (h1 : 1 ≤ seqLength)
    (h2 : seqLength - 1 < (seedTokens vocab seedWords).length) :
    lastWindow (initTokens vocab seedWords seqLength) (seqLength - 1) =
      (seedTokens vocab seedWords).take (seqLength - 1) := by
  have hrep : (seqLength - 1) - (seedTokens vocab seedWords).length = 0 := by omega
  have hinit : initTokens vocab seedWords seqLength =
      (seedTokens vocab seedWords).take (seqLength - 1) := by
    rw [initTokens, hrep]
    simp
  rw [hinit]
  apply lastWindow_of_length_eq
  rw [List.length_take]
  omega

/-- Claim C1 witness: the amended claim at the counterexample's concrete input. -/
theorem initial_window_leading_witness :
    lastWindow (initTokens demoVocab ["save", "money", "budget", "tips"] 3) 2 =
      (seedTokens demoVocab ["save", "money", "budget", "tips"]).take 2 :=
  initial_window_leading demoVocab ["save", "money", "budget", "tips"] 3
    (by decide) (by decide)

/-- Claim C3: the decode loop is total and runs exactly `length` iterations; the
word list returned by `generate_text` (whose space-join is the returned
string) has exactly `(seq_length - 1) + length` entries. -/
theorem decode_output_length (model : List Nat → List (List ℝ))
    (vocab : List (String × Nat)) (seedWords : List String) (seqLength len : Nat)
    (T : ℝ) (_h : 1 ≤ seqLength) :
    (generate_words model vocab seedWords seqLength len T).length =
      (seqLength - 1) + len ∧
    generate_text model vocab seedWords seqLength len T =
      String.intercalate " " (generate_words model vocab seedWords seqLength len T) := by
  constructor
  · simp only [generate_words, gen_state, List.length_map]
    rw [genLoop_length, initTokens_length]
  · rfl

/-- Claim C3 witness. -/
theorem decode_output_length_witness :
    (generate_words (fun _ => [[(0 : ℝ), 1]]) demoVocab ["save", "money"] 20 50
      (7 / 10)).length = 19 + 50 ∧
    generate_text (fun _ => [[(0 : ℝ), 1]]) demoVocab ["save", "money"] 20 50 (7 / 10) =
      String.intercalate " "
        (generate_words (fun _ => [[(0 : ℝ), 1]]) demoVocab ["save", "money"] 20 50
          (7 / 10)) :=
  decode_output_length (fun _ => [[(0 : ℝ), 1]]) demoVocab ["save", "money"] 20 50
    (7 / 10) (by decide)

/-- Claim C4: at every decode step `s` the generation state has length
`(seq_length - 1) + s` (post-truncation/padding seed length plus steps taken),
and the window the model is queried with is exactly the trailing
`seq_length - 1` identifiers of the state: it has length `seq_length - 1` and
the state is some prefix followed by it. -/
theorem decode_invariant (model : List Nat → List (List ℝ))
    (vocab : List (String × Nat)) (seedWords : List String) (seqLength : Nat)
    (T : ℝ) (h : 2 ≤ seqLength) (s : Nat) :
    (gen_state model vocab seedWords seqLength s T).length = (seqLength - 1) + s ∧
    (lastWindow (gen_state model vocab seedWords seqLength s T)
      (seqLength - 1)).length = seqLength - 1 ∧
    gen_state model vocab seedWords seqLength s T =
      (gen_state model vocab seedWords seqLength s T).take
        ((gen_state model vocab seedWords seqLength s T).length - (seqLength - 1)) ++
      lastWindow (gen_state model vocab seedWords seqLength s T) (seqLength - 1) := by
  have hlen : (gen_state model vocab seedWords seqLength s T).length =
      (seqLength - 1) + s := by
    simp only [gen_state]
    rw [genLoop_length, initTokens_length]
  refine ⟨hlen, ?_, ?_⟩
  · apply lastWindow_length _ _ (by omega)
    rw [hlen]
    omega
  · exact lastWindow_suffix _ _ (by omega)

/-- Claim C4 witness. -/
theorem decode_invariant_witness :
    (gen_state (fun _ => [[(0 : ℝ), 1]]) demoVocab ["save"] 20 3 (7 / 10)).length =
      19 + 3 ∧
    (lastWindow (gen_state (fun _ => [[(0 : ℝ), 1]]) demoVocab ["save"] 20 3 (7 / 10))
      19).length = 19 ∧
    gen_state (fun _ => [[(0 : ℝ), 1]]) demoVocab ["save"] 20 3 (7 / 10) =
      (gen_state (fun _ => [[(0 : ℝ), 1]]) demoVocab ["save"] 20 3 (7 / 10)).take
        ((gen_state (fun _ => [[(0 : ℝ), 1]]) demoVocab ["save"] 20 3 (7 / 10)).length -
          19) ++
      lastWindow (gen_state (fun _ => [[(0 : ℝ), 1]]) demoVocab ["save"] 20 3 (7 / 10))
        19 :=
  decode_invariant (fun _ => [[(0 : ℝ), 1]]) demoVocab ["save"] 20 (7 / 10)
    (by decide) 3

/-- Claim C5: for a seed tokenizing to fewer than `seq_length - 1` tokens, the
initial window is the tokenized seed right-padded with the padding identifier
`0` to exactly `seq_length - 1` identifiers; a seed with zero tokens yields an
all-padding window, and the loop still produces `(seq_length - 1) + length`
output tokens. -/
theorem initial_window_padded (vocab : List (String × Nat)) (seedWords : List String)
    (seqLength : Nat) (h : (seedTokens vocab seedWords).length < seqLength - 1) :
    lastWindow (initTokens vocab seedWords seqLength) (seqLength - 1) =
      seedTokens vocab seedWords ++
        List.replicate ((seqLength - 1) - (seedTokens vocab seedWords).length) 0 ∧
    (seedWords = [] →
      lastWindow (initTokens vocab seedWords seqLength) (seqLength - 1) =
        List.replicate (seqLength - 1) 0) ∧
    ∀ (model : List Nat → List (List ℝ)) (len : Nat) (T : ℝ),
      (generate_words model vocab seedWords seqLength len T).length =
        (seqLength - 1) + len := by
  have hwin : lastWindow (initTokens vocab seedWords seqLength) (seqLength - 1) =
      initTokens vocab seedWords seqLength :=
    lastWindow_of_length_eq _ _ (initTokens_length _ _ _)
  have htake : (seedTokens vocab seedWords).take (seqLength - 1) =
      seedTokens vocab seedWords :=
    List.take_of_length_le (by omega)
  refine ⟨?_, ?_, ?_⟩
  · rw [hwin, initTokens, htake]
  · intro hempty
    rw [hwin, initTokens]
    subst hempty
    simp [seedTokens]
  · intro model len T
    simp only [generate_words, gen_state, List.length_map]
    rw [genLoop_length, initTokens_length]

/-- Claim C5 witness. -/
theorem initial_window_padded_witness :
    lastWindow (initTokens demoVocab ["save"] 4) 3 =
      seedTokens demoVocab ["save"] ++ List.replicate 2 0 ∧
    (["save"] = ([] : List String) →
      lastWindow (initTokens demoVocab ["save"] 4) 3 = List.replicate 3 0) ∧
    ∀ (model : List Nat → List (List ℝ)) (len : Nat) (T : ℝ),
      (generate_words model demoVocab ["save"] 4 len T).length = 3 + len :=
  initial_window_padded demoVocab ["save"] 4 (by decide)

theorem invGet_cases (vocab : List (String × Nat)) (t : Nat) :
    invGet vocab t = "<PAD>" ∨ invGet vocab t ∈ vocab.map Prod.fst := by
  unfold invGet
  cases hl : (vocab.map (fun p => (p.2, p.1))).reverse.lookup t with
  | none => simp
  | some s =>
    right
    have hmem := mem_of_lookup_eq_some hl
    rw [List.mem_reverse] at hmem
    rcases List.mem_map.mp hmem with ⟨q, hq, heq⟩
    have hs : s = q.1 := by
      have := congrArg Prod.snd heq
      simpa using this.symm
    simp only [Option.getD_some]
    rw [hs]
    exact List.mem_map_of_mem Prod.fst hq

/-- Claim C6: the inverse-vocabulary mapping is total: the output word list is the
elementwise image of the final generation state under `invGet`, every
identifier outside the vocabulary's identifier set renders as the literal
padding text, and consequently every output word is either a vocabulary word
or the padding text. -/
theorem inverse_vocab_total (vocab : List (String × Nat))
    (model : List Nat → List (List ℝ)) (seedWords : List String)
    (seqLength len : Nat) (T : ℝ) :
    (∀ t : Nat, t ∉ vocab.map Prod.snd → invGet vocab t = "<PAD>") ∧
    generate_words model vocab seedWords seqLength len T =
      (gen_state model vocab seedWords seqLength len T).map (invGet vocab) ∧
    ∀ w ∈ generate_words model vocab seedWords seqLength len T,
      w = "<PAD>" ∨ w ∈ vocab.map Prod.fst := by
  refine ⟨?_, rfl, ?_⟩
  · intro t ht
    unfold invGet
    rw [lookup_eq_none_of_forall _ t ?_]
    · rfl
    · intro p hp
      rw [List.mem_reverse] at hp
      rcases List.mem_map.mp hp with ⟨q, hq, heq⟩
      intro hc
      apply ht
      rw [← hc, ← heq]
      exact List.mem_map_of_mem Prod.snd hq
  · intro w hw
    rcases List.mem_map.mp hw with ⟨t, _, rfl⟩
    exact invGet_cases vocab t

/-- Claim C6 witness: an out-of-vocabulary identifier renders as the padding text. -/
theorem inverse_vocab_total_witness : invGet demoVocab 99 = "<PAD>" :=
  (inverse_vocab_total demoVocab (fun _ => [[(0 : ℝ), 1]]) ["save"] 20 1 (7 / 10)).1
    99 (by decide)

/-- Claim C2: for any prediction array with nonnegative entries, a nonempty final
row, and any two positive temperatures, the temperature transform (log with
additive floor, divide by temperature, exponentiate, renormalize) followed by
the first-maximum arg-max selects the same next-token identifier: the chosen
token is independent of the temperature. -/
theorem temperature_argmax_invariant (pred : List (List ℝ)) (T₁ T₂ : ℝ)
    (h1 : 0 < T₁) (h2 : 0 < T₂)
    (hnn : ∀ row ∈ pred, ∀ x ∈ row, 0 ≤ x)
    (hne : pred.getLastD [] ≠ []) :
    argmax ((tempTransform T₁ pred).getLastD []) =
      argmax ((tempTransform T₂ pred).getLastD []) := by
  have hpred : pred ≠ [] := by
    intro h0
    rw [h0] at hne
    exact hne rfl
  have hlast : ∀ x ∈ pred.getLastD [], 0 ≤ x :=
    fun x hx => hnn _ (getLastD_mem pred [] hpred) x hx
  rw [argmax_tempTransform T₁ pred h1 hlast hne,
    argmax_tempTransform T₂ pred h2 hlast hne]

/-- Claim C2 witness. -/
theorem temperature_argmax_invariant_witness :
    argmax ((tempTransform 1 [[(0 : ℝ), 1 / 2]]).getLastD []) =
      argmax ((tempTransform 2 [[(0 : ℝ), 1 / 2]]).getLastD []) :=
  temperature_argmax_invariant [[(0 : ℝ), 1 / 2]] 1 2 (by norm_num) (by norm_num)
    (by
      intro row hrow x hx
      simp only [List.mem_singleton] at hrow
      subst hrow
      rcases List.mem_cons.mp hx with h | h
      · rw [h]
      · simp only [List.mem_singleton] at h
        rw [h]
        norm_num)
    (by simp)

/-- Claim C7: for every prediction with nonnegative entries, the argument of the
logarithm after the additive floor `1e-10` is strictly positive, the log is
genuinely defined there (exponentiating it recovers the floored value), and
the rescaled value is positive, so the transform encounters no
undefined-value failure. -/
theorem log_floor_positive (pred : List (List ℝ))
    (h : ∀ row ∈ pred, ∀ x ∈ row, 0 ≤ x) :
    ∀ row ∈ pred, ∀ x ∈ row, 0 < x + epsFloor ∧
      Real.exp (Real.log (x + epsFloor)) = x + epsFloor ∧
      ∀ T : ℝ, 0 < tempScale T x := by
  intro row hrow x hx
  have hx0 : 0 ≤ x := h row hrow x hx
  have hpos : 0 < x + epsFloor := by
    have := epsFloor_pos
    linarith
  exact ⟨hpos, Real.exp_log hpos, fun T => tempScale_pos T x⟩

/-- Claim C7 witness: the zero entry is tolerated. -/
theorem log_floor_positive_witness :
    0 < (0 : ℝ) + epsFloor ∧
      Real.exp (Real.log ((0 : ℝ) + epsFloor)) = (0 : ℝ) + epsFloor ∧
      ∀ T : ℝ, 0 < tempScale T 0 :=
  log_floor_positive [[(0 : ℝ)]] (by
      intro row hrow x hx
      simp only [List.mem_singleton] at hrow
      subst hrow
      simp only [List.mem_singleton] at hx
      rw [hx])
    [(0 : ℝ)] (by simp) 0 (by simp)

/-- Claim C9: `generate_text` is deterministic: the embedding is a pure function,
so equal inputs give equal word lists; and `argmax` resolves ties by always
choosing the first maximal index: its result is an index of the list, the
entry there dominates every entry, and every strictly earlier entry is
strictly smaller. -/
theorem generation_deterministic :
    (∀ (model : List Nat → List (List ℝ)) (vocab : List (String × Nat))
        (seedWords : List String) (seqLength len : Nat) (T : ℝ),
      generate_words model vocab seedWords seqLength len T =
        generate_words model vocab seedWords seqLength len T) ∧
    ∀ l : List ℝ, l ≠ [] →
      argmax l < l.length ∧
      (∀ i, i < l.length → l.getD i 0 ≤ l.getD (argmax l) 0) ∧
      ∀ j, j < argmax l → l.getD j 0 < l.getD (argmax l) 0 := by
  refine ⟨fun _ _ _ _ _ _ => rfl, ?_⟩
  intro l hl
  refine ⟨argmax_lt_length l hl, ?_, fun j hj => getD_lt_of_lt_argmax l j hj⟩
  intro i hi
  rw [getD_argmax l hl]
  apply le_listMax
  rw [List.getD_eq_getElem l 0 hi]
  exact List.getElem_mem hi

/-- Claim C9 witness: ties resolve to the first maximal index. -/
theorem generation_deterministic_witness :
    argmax [(3 : ℝ), 3, 1] < 3 ∧
    (∀ i, i < 3 →
      [(3 : ℝ), 3, 1].getD i 0 ≤ [(3 : ℝ), 3, 1].getD (argmax [(3 : ℝ), 3, 1]) 0) ∧
    ∀ j, j < argmax [(3 : ℝ), 3, 1] →
      [(3 : ℝ), 3, 1].getD j 0 < [(3 : ℝ), 3, 1].getD (argmax [(3 : ℝ), 3, 1]) 0 :=
  generation_deterministic.2 [(3 : ℝ), 3, 1] (by simp)

theorem enum_pairs_fst (l : List String) :
    (l.enum.map (fun p => (p.2, p.1 + 1))).map Prod.fst = l := by
  rw [List.map_map]
  have hc : (Prod.fst ∘ fun p : Nat × String => (p.2, p.1 + 1)) = Prod.snd := rfl
  rw [hc, List.enum_map_snd]

/-- Claim C8: the vocabulary built by `preprocess_text` has pairwise-distinct word
keys and pairwise-distinct identifiers (an injective mapping), every
identifier lies in `0..vocab_size-1`, identifier `0` belongs to the
padding/out-of-vocabulary symbol `<PAD>`, and at most `vocab_size` words are
mapped. The hypothesis that `<PAD>` is not a corpus token reflects the
source, where every token comes from lowercased text. -/
theorem vocab_bijective_bounded (allTokens : List String) (vocabSize : Nat)
    (h1 : 1 ≤ vocabSize) (h2 : "<PAD>" ∉ allTokens) :
    ((vocabDict allTokens vocabSize).map Prod.fst).Nodup ∧
    ((vocabDict allTokens vocabSize).map Prod.snd).Nodup ∧
    (∀ p ∈ vocabDict allTokens vocabSize, p.2 < vocabSize) ∧
    ("<PAD>", 0) ∈ vocabDict allTokens vocabSize ∧
    (vocabDict allTokens vocabSize).length ≤ vocabSize := by
  rw [vocabDict_eq allTokens vocabSize h2]
  have hfst := enum_pairs_fst (mostCommon allTokens (vocabSize - 1))
  have hsnd := enum_pairs_snd (mostCommon allTokens (vocabSize - 1))
  have hmcwnd := mostCommon_nodup allTokens (vocabSize - 1)
  have hlen : (mostCommon allTokens (vocabSize - 1)).length ≤ vocabSize - 1 :=
    mostCommon_length_le _ _
  have hpadnot : "<PAD>" ∉ mostCommon allTokens (vocabSize - 1) :=
    fun hc => h2 (mostCommon_subset _ _ _ hc)
  refine ⟨?_, ?_, ?_, ?_, ?_⟩
  · rw [List.map_append, hfst, List.nodup_append]
    refine ⟨hmcwnd, by simp, ?_⟩
    simpa [List.disjoint_singleton] using hpadnot
  · rw [List.map_append, hsnd, List.nodup_append]
    refine ⟨?_, by simp, ?_⟩
    · exact List.Nodup.map (fun a b hab => by omega) (List.nodup_range _)
    · rw [show (List.map Prod.snd [(("<PAD>" : String), (0 : Nat))]) = [0] from rfl,
        List.disjoint_singleton]
      simp
  · intro p hp
    rcases List.mem_append.mp hp with hp | hp
    · have hps : p.2 ∈ ((mostCommon allTokens (vocabSize - 1)).enum.map
          (fun p => (p.2, p.1 + 1))).map Prod.snd :=
        List.mem_map_of_mem Prod.snd hp
      rw [hsnd] at hps
      rcases List.mem_map.mp hps with ⟨i, hi, hpi⟩
      rw [List.mem_range] at hi
      omega
    · simp only [List.mem_singleton] at hp
      rw [hp]
      omega
  · simp
  · rw [List.length_append, List.length_map, List.enum_length]
    simp only [List.length_singleton]
    omega

/-- Claim C8 witness. -/
theorem vocab_bijective_bounded_witness :
    ((vocabDict ["save", "money", "save"] 3).map Prod.fst).Nodup ∧
    ((vocabDict ["save", "money", "save"] 3).map Prod.snd).Nodup ∧
    (∀ p ∈ vocabDict ["save", "money", "save"] 3, p.2 < 3) ∧
    ("<PAD>", 0) ∈ vocabDict ["save", "money", "save"] 3 ∧
    (vocabDict ["save", "money", "save"] 3).length ≤ 3 :=
  vocab_bijective_bounded ["save", "money", "save"] 3 (by decide) (by decide)

/-- Claim C10: every window enumerated by `preprocess_text` is already full-length
(`seq_length` identifiers), so the per-sequence padding step is a no-op; the
returned sequence list is the truncation to at most `max_sequences` windows,
each of exactly `seq_length` identifiers; trailing corpus tokens beyond the
enumerated windows are dropped. -/
theorem preprocess_sequences_shape (allTokens : List String)
    (vocabSize seqLength maxSequences : Nat) (h : 0 < seqLength) :
    (∀ s ∈ (preprocess_text allTokens vocabSize seqLength maxSequences).1,
      s.length = seqLength) ∧
    (preprocess_text allTokens vocabSize seqLength maxSequences).1.length ≤
      maxSequences ∧
    (preprocess_text allTokens vocabSize seqLength maxSequences).1 =
      sequences_trunc (token_ids allTokens vocabSize) seqLength maxSequences ∧
    ∀ s ∈ sequences_raw (token_ids allTokens vocabSize) seqLength,
      s.length = seqLength := by
  have hnoop := sequences_padded_noop (token_ids allTokens vocabSize) seqLength
    maxSequences h
  have hraw := sequences_raw_full (token_ids allTokens vocabSize) seqLength h
  refine ⟨?_, ?_, hnoop, hraw⟩
  · intro s hs
    simp only [preprocess_text] at hs
    rw [hnoop] at hs
    exact hraw s (List.mem_of_mem_take hs)
  · simp only [preprocess_text]
    rw [hnoop]
    exact List.length_take_le _ _

/-- Claim C10 witness. -/
theorem preprocess_sequences_shape_witness :
    (∀ s ∈ (preprocess_text ["save", "money", "save", "budget", "money", "save"]
        3 2 10).1, s.length = 2) ∧
    (preprocess_text ["save", "money", "save", "budget", "money", "save"]
        3 2 10).1.length ≤ 10 ∧
    (preprocess_text ["save", "money", "save", "budget", "money", "save"] 3 2 10).1 =
      sequences_trunc
        (token_ids ["save", "money", "save", "budget", "money", "save"] 3) 2 10 ∧
    ∀ s ∈ sequences_raw
        (token_ids ["save", "money", "save", "budget", "money", "save"] 3) 2,
      s.length = 2 :=
  preprocess_sequences_shape ["save", "money", "save", "budget", "money", "save"]
    3 2 10 (by decide)
